import Mathlib

/-!
Verification of `scripts/merge_lemmas.py` (Oracc transcription comparator).

Strings are modelled as `List Char`, mirroring Python's sequence-of-code-points
view of `str`; `len` is `List.length`.  Python code that can raise an exception
is modelled with `Option`/`Except`.  Each definition is a direct translation of
the corresponding function of the Python source, keeping the source's name
where Lean allows it.
-/

namespace MergeLemmas

/-- Lookup in an association list, modelling Python `dict` read access `d[k]`
(first matching key wins; Python dict keys are unique, so the association lists
built below never hold a key twice). -/
def dget {α β : Type} [DecidableEq α] : List (α × β) → α → Option β
  | [], _ => none
  | (k, v) :: rest, key => if key = k then some v else dget rest key

theorem dget_eq_some_mem {α β : Type} [DecidableEq α] :
    ∀ {l : List (α × β)} {key : α} {v : β}, dget l key = some v → (key, v) ∈ l := by
  intro l
  induction l with
  | nil => intro key v h; simp [dget] at h
  | cons p rest ih =>
    intro key v h
    obtain ⟨k, w⟩ := p
    simp only [dget] at h
    by_cases hk : key = k
    · rw [if_pos hk] at h
      subst hk
      obtain rfl : w = v := by injection h
      exact List.mem_cons_self _ _
    · rw [if_neg hk] at h
      exact List.mem_cons_of_mem _ (ih h)

/-- In-place update of the value stored at a key, modelling Python
`d[k] = f(d[k])` on a present key (the entry keeps its position). -/
def dmodify {α β : Type} [DecidableEq α] (f : β → β) :
    List (α × β) → α → List (α × β)
  | [], _ => []
  | (k, v) :: rest, key =>
      if key = k then (k, f v) :: rest else (k, v) :: dmodify f rest key

theorem dget_dmodify {α β : Type} [DecidableEq α] (f : β → β) :
    ∀ (l : List (α × β)) (key other : α),
      dget (dmodify f l key) other =
        if other = key then (dget l key).map f else dget l other := by
  intro l
  induction l with
  | nil => intro key other; simp [dmodify, dget]
  | cons p rest ih =>
    intro key other
    obtain ⟨k, v⟩ := p
    by_cases hk : key = k
    · subst hk
      by_cases ho : other = key <;> simp [dmodify, dget, ho]
    · by_cases ho : other = k
      · subst ho
        have hne : ¬ other = key := fun h => hk h.symm
        simp [dmodify, dget, hk, hne]
      · simp [dmodify, dget, hk, ho, ih]

theorem dget_append_new {α β : Type} [DecidableEq α] :
    ∀ (l : List (α × β)) (k : α) (v : β) (other : α),
      dget (l ++ [(k, v)]) other =
        match dget l other with
        | some w => some w
        | none => if other = k then some v else none := by
  intro l
  induction l with
  | nil => intro k v other; simp [dget]
  | cons p rest ih =>
    intro k v other
    obtain ⟨k2, v2⟩ := p
    by_cases h : other = k2 <;> simp [dget, h, ih]

/-- Case-mapping table underlying the char-wise model of Python `str.lower`:
ASCII letters plus the transliteration letters Ā Ē Ī Ū Š Ṣ Ṭ Ḫ Ŋ that occur in
Oracc data.  Characters outside the table (braces, digits, cuneiform subscript
glyphs, punctuation, lowercase letters, dashes) are fixed points of
`str.lower`. -/
def lowerPairs : List (Char × Char) :=
  [('A', 'a'), ('B', 'b'), ('C', 'c'), ('D', 'd'), ('E', 'e'), ('F', 'f'),
   ('G', 'g'), ('H', 'h'), ('I', 'i'), ('J', 'j'), ('K', 'k'), ('L', 'l'),
   ('M', 'm'), ('N', 'n'), ('O', 'o'), ('P', 'p'), ('Q', 'q'), ('R', 'r'),
   ('S', 's'), ('T', 't'), ('U', 'u'), ('V', 'v'), ('W', 'w'), ('X', 'x'),
   ('Y', 'y'), ('Z', 'z'),
   ('Ā', 'ā'), ('Ē', 'ē'), ('Ī', 'ī'), ('Ū', 'ū'), ('Š', 'š'), ('Ṣ', 'ṣ'),
   ('Ṭ', 'ṭ'), ('Ḫ', 'ḫ'), ('Ŋ', 'ŋ')]

/-- The mirror table for Python `str.upper` on the same alphabet. -/
def upperPairs : List (Char × Char) := lowerPairs.map (fun p => (p.2, p.1))

/-- Char-wise model of Python `str.lower` on the corpus alphabet. -/
def pyCharLower (c : Char) : Char := (dget lowerPairs c).getD c

/-- Char-wise model of Python `str.upper` on the corpus alphabet. -/
def pyCharUpper (c : Char) : Char := (dget upperPairs c).getD c

/-- Model of Python `s.lower()`. -/
def pyLower (s : List Char) : List Char := s.map pyCharLower

/-- Model of Python `s.upper()`. -/
def pyUpper (s : List Char) : List Char := s.map pyCharUpper

theorem pyCharLower_idem (c : Char) :
    pyCharLower (pyCharLower c) = pyCharLower c := by
  unfold pyCharLower
  cases h : dget lowerPairs c with
  | none => simp only [Option.getD_none]; rw [h]; rfl
  | some v =>
    have hv : (c, v) ∈ lowerPairs := dget_eq_some_mem h
    have key : ∀ p ∈ lowerPairs, dget lowerPairs p.2 = none := by decide
    simp only [Option.getD_some]
    rw [key (c, v) hv]
    rfl

theorem pyCharLower_pyCharUpper (c : Char) :
    pyCharLower (pyCharUpper c) = pyCharLower c := by
  unfold pyCharUpper
  cases h : dget upperPairs c with
  | none => rfl
  | some v =>
    have hv : (c, v) ∈ upperPairs := dget_eq_some_mem h
    have key : ∀ p ∈ upperPairs, pyCharLower p.2 = pyCharLower p.1 := by decide
    simp only [Option.getD_some]
    exact key (c, v) hv

theorem pyLower_pyLower (s : List Char) : pyLower (pyLower s) = pyLower s := by
  simp only [pyLower, List.map_map]
  exact List.map_congr_left (fun c _ => pyCharLower_idem c)

theorem pyLower_pyUpper (s : List Char) : pyLower (pyUpper s) = pyLower s := by
  simp only [pyLower, pyUpper, List.map_map]
  exact List.map_congr_left (fun c _ => pyCharLower_pyCharUpper c)

theorem pyLower_length (s : List Char) : (pyLower s).length = s.length :=
  List.length_map s pyCharLower

/-- Characters fixed by `pyCharLower` are exactly those outside the table keys;
in particular a fixed point is never an ASCII uppercase letter. -/
theorem pyCharLower_fixed_ne (c : Char) (d : Char) (hd : (d, pyCharLower d) ∈ lowerPairs) :
    pyCharLower c = c → c ≠ d := by
  intro hfix hcd
  subst hcd
  have key : ∀ p ∈ lowerPairs, pyCharLower p.1 ≠ p.1 := by decide
  have := key (c, pyCharLower c) hd
  exact this hfix

/-- Translation of `hamming(s1, s2)`:
`sum(e1 != e2 for e1, e2 in zip(s1, s2))`. -/
def hamming (s1 s2 : List Char) : Nat :=
  ((s1.zip s2).map (fun p => if p.1 ≠ p.2 then 1 else 0)).sum

/-- Translation of the inner loop of `levenshtein`: given the yet-unprocessed
part of `s2` paired with the matching tail of `previous_row`, and the last
value appended to `current_row`, produce the rest of `current_row`.  The list
indexing `previous_row[j]` / `previous_row[j+1]` of the source becomes the
head pattern `pj :: pj1 :: ptl`. -/
def rowStep (c1 : Char) : List Char → List Nat → Nat → List Nat
  | c2 :: rest2, pj :: pj1 :: ptl, cur =>
      let v := min (pj1 + 1) (min (cur + 1) (pj + (if c1 ≠ c2 then 1 else 0)))
      v :: rowStep c1 rest2 (pj1 :: ptl) v
  | _, _, _ => []

/-- Translation of the outer loop of `levenshtein`: fold over `s1` (with the
running `enumerate` index `i`), turning `previous_row` into the next row
`[i + 1] ++ rowStep ...`. -/
def levRows (s2 : List Char) : List Char → Nat → List Nat → List Nat
  | [], _, prev => prev
  | c1 :: rest1, i, prev => levRows s2 rest1 (i + 1) ((i + 1) :: rowStep c1 s2 prev (i + 1))

/-- Translation of the body of `levenshtein` after the argument swap: the
`len(s2) == 0` early return, then the dynamic program seeded with
`previous_row = range(len(s2) + 1)`, returning `previous_row[-1]`. -/
def levCore (s1 s2 : List Char) : Nat :=
  if s2.length = 0 then s1.length
  else (levRows s2 s1 0 (List.range (s2.length + 1))).getLastD 0

/-- Translation of `levenshtein(s1, s2)`.  The source starts with
`if len(s1) < len(s2): return levenshtein(s2, s1)`, a single self-call that
swaps the arguments; after the swap the body (`levCore`) runs. -/
def levenshtein (s1 s2 : List Char) : Nat :=
  if s1.length < s2.length then levCore s2 s1 else levCore s1 s2

/-- Translation of `score_strings(w1, w2)`: Hamming distance of the lowercased
strings when the lengths agree, Levenshtein distance of the lowercased strings
otherwise. -/
def score_strings (w1 w2 : List Char) : Nat :=
  if w1.length = w2.length then hamming (pyLower w1) (pyLower w2)
  else levenshtein (pyLower w1) (pyLower w2)

/-- Helper for the specification recursion below (inner recursion on the
second string, with `f = levRec xs` the distances from the tail). -/
def levRecAux (x : Char) (f : List Char → Nat) : List Char → Nat
  | [] => f [] + 1
  | y :: ys =>
      min (f ys + (if x = y then 0 else 1))
        (min (f (y :: ys)) (levRecAux x f ys) + 1)

/-- Specification of the Levenshtein edit distance, written independently of
the source: the classic textbook recurrence (substitute at unit cost when the
heads differ, otherwise delete or insert at unit cost), with the empty-string
cases degenerating to the length of the other string — the recurrence the spec
itself names in §4.3. -/
def levRec : List Char → List Char → Nat
  | [], ys => ys.length
  | x :: xs, ys => levRecAux x (levRec xs) ys

theorem levRec_nil (ys : List Char) : levRec [] ys = ys.length := rfl

theorem levRec_nil_right (xs : List Char) : levRec xs [] = xs.length := by
  induction xs with
  | nil => rfl
  | cons x xs ih => simp only [levRec, levRecAux, ih, List.length_cons]

theorem levRec_cons_cons (x y : Char) (xs ys : List Char) :
    levRec (x :: xs) (y :: ys) =
      min (levRec xs ys + (if x = y then 0 else 1))
        (min (levRec xs (y :: ys)) (levRec (x :: xs) ys) + 1) := rfl

/-- Rearrangement identity for nested minima used in the snoc-recurrence
proof: both sides flatten to the same multiset of nine sums. -/
theorem min_shuffle (a1 a2 a3 a4 a5 a6 a7 a8 a9 p q : Nat) :
    min (min (a1 + q) (min a2 a3 + 1) + p)
      (min (min (a4 + q) (min a5 a6 + 1)) (min (a7 + q) (min a8 a9 + 1)) + 1)
    = min (min (a1 + p) (min a4 a7 + 1) + q)
      (min (min (a2 + p) (min a5 a8 + 1)) (min (a3 + p) (min a6 a9 + 1)) + 1) := by
  simp only [← Nat.add_min_add_right]
  simp only [min_assoc]
  simp only [Nat.add_assoc]
  simp only [min_comm, min_left_comm, Nat.add_comm, Nat.add_left_comm]

section LevProofs

attribute [local irreducible] levRec levRecAux

/-- The specification recurrence also holds at the far end of both strings
(extension by one character on the right). -/
theorem levRec_snoc (c d : Char) :
    ∀ u w : List Char,
      levRec (u ++ [c]) (w ++ [d]) =
        min (levRec u w + (if c = d then 0 else 1))
          (min (levRec u (w ++ [d])) (levRec (u ++ [c]) w) + 1) := by
  intro u
  induction u with
  | nil =>
    intro w
    induction w with
    | nil =>
      rw [List.nil_append, List.nil_append]
      exact levRec_cons_cons c d [] []
    | cons y w ihw =>
      simp only [List.nil_append, List.cons_append] at ihw ⊢
      rw [levRec_cons_cons c y [] (w ++ [d]), ihw,
        levRec_cons_cons c y [] w,
        levRec_nil (w ++ [d]), levRec_nil (y :: w), levRec_nil (y :: (w ++ [d])),
        levRec_nil w]
      simp only [List.length_append, List.length_cons, List.length_nil,
        Nat.add_zero, Nat.zero_add]
      try simp only [← Nat.add_min_add_right]
      try simp only [min_assoc]
      try simp only [Nat.add_assoc, Nat.zero_add, Nat.add_zero]
      try simp only [min_comm, min_left_comm, Nat.add_comm, Nat.add_left_comm]
  | cons x u ihu =>
    intro w
    induction w with
    | nil =>
      simp only [List.nil_append, List.cons_append] at ihu ⊢
      have h2 := ihu []
      simp only [List.nil_append] at h2
      rw [levRec_cons_cons x d (u ++ [c]) [], h2,
        levRec_cons_cons x d u [],
        levRec_nil_right (u ++ [c]), levRec_nil_right u,
        levRec_nil_right (x :: (u ++ [c])), levRec_nil_right (x :: u)]
      simp only [List.length_append, List.length_cons, List.length_nil,
        Nat.add_zero, Nat.zero_add]
      try simp only [← Nat.add_min_add_right]
      try simp only [min_assoc]
      try simp only [Nat.add_assoc, Nat.zero_add, Nat.add_zero]
      try simp only [min_comm, min_left_comm, Nat.add_comm, Nat.add_left_comm]
    | cons y w ihw =>
      simp only [List.nil_append, List.cons_append] at ihu ihw ⊢
      have h3 := ihu (y :: w)
      simp only [List.cons_append] at h3
      rw [levRec_cons_cons x y (u ++ [c]) (w ++ [d]), ihu w, h3, ihw,
        levRec_cons_cons x y u (w ++ [d]), levRec_cons_cons x y u w,
        levRec_cons_cons x y (u ++ [c]) w]
      exact min_shuffle _ _ _ _ _ _ _ _ _ _ _

/-- Symmetry of the specification distance. -/
theorem levRec_symm : ∀ a b : List Char, levRec a b = levRec b a := by
  intro a
  induction a with
  | nil =>
    intro b
    cases b with
    | nil => rfl
    | cons y ys => rw [levRec_nil, levRec_nil_right]
  | cons x xs ihx =>
    intro b
    induction b with
    | nil => rw [levRec_nil, levRec_nil_right]
    | cons y ys ihy =>
      rw [levRec_cons_cons, levRec_cons_cons, ihx ys, ihx (y :: ys), ihy]
      have hxy : (if x = y then 0 else 1) = (if y = x then 0 else 1) := by
        by_cases h : x = y
        · rw [if_pos h, if_pos h.symm]
        · rw [if_neg h, if_neg (fun hyx => h hyx.symm)]
      rw [hxy]
      simp only [min_comm, min_left_comm, min_assoc]

end LevProofs

/-- The tail of the previous DP row, viewed from the point where the prefix `w`
of `s2` has been consumed: the distances from `u` to `w`, `w ++ [d₁]`,
`w ++ [d₁, d₂]`, … for the remaining characters of `s2`. -/
def rowTail (u w : List Char) : List Char → List Nat
  | [] => [levRec u w]
  | d :: t => levRec u w :: rowTail u (w ++ [d]) t

/-- What the inner loop is expected to produce: the same distances, one step
further along `s1` and starting one character later in `s2`. -/
def outRow (v w : List Char) : List Char → List Nat
  | [] => []
  | d :: t => levRec v (w ++ [d]) :: outRow v (w ++ [d]) t

theorem rowStep_cons (c1 d : Char) (t : List Char) (p0 p1 : Nat) (rest : List Nat) (cur : Nat) :
    rowStep c1 (d :: t) (p0 :: p1 :: rest) cur =
      min (p1 + 1) (min (cur + 1) (p0 + (if c1 ≠ d then 1 else 0))) ::
        rowStep c1 t (p1 :: rest)
          (min (p1 + 1) (min (cur + 1) (p0 + (if c1 ≠ d then 1 else 0)))) := rfl

section LevBridge

attribute [local irreducible] levRec levRecAux

theorem rowTail_eq_cons_outRow : ∀ (t : List Char) (u w : List Char),
    rowTail u w t = levRec u w :: outRow u w t := by
  intro t
  induction t with
  | nil => intro u w; rfl
  | cons d t ih =>
    intro u w
    simp only [rowTail, outRow, ih]

theorem min_rot (A B C e : Nat) :
    min (B + 1) (min (C + 1) (A + e)) = min (A + e) (min B C + 1) := by
  try simp only [← Nat.add_min_add_right]
  try simp only [min_assoc]
  simp only [min_comm, min_left_comm]

theorem rowStep_spec (c1 : Char) (u : List Char) : ∀ (t w : List Char),
    rowStep c1 t (rowTail u w t) (levRec (u ++ [c1]) w) = outRow (u ++ [c1]) w t := by
  intro t
  induction t with
  | nil => intro w; rfl
  | cons d t ih =>
    intro w
    rw [rowTail, rowTail_eq_cons_outRow t u (w ++ [d]), rowStep_cons]
    have hv : min (levRec u (w ++ [d]) + 1)
        (min (levRec (u ++ [c1]) w + 1) (levRec u w + (if c1 ≠ d then 1 else 0))) =
        levRec (u ++ [c1]) (w ++ [d]) := by
      rw [levRec_snoc c1 d u w]
      have he : (if c1 = d then 0 else 1) = (if c1 ≠ d then 1 else 0) := by
        by_cases h : c1 = d <;> simp [h]
      rw [he, min_rot]
    rw [hv, ← rowTail_eq_cons_outRow t u (w ++ [d]), ih (w ++ [d]), outRow]

theorem levRows_spec (s2 : List Char) : ∀ (s1 u : List Char),
    levRows s2 s1 u.length (rowTail u [] s2) = rowTail (u ++ s1) [] s2 := by
  intro s1
  induction s1 with
  | nil => intro u; rw [levRows, List.append_nil]
  | cons c1 rest ih =>
    intro u
    rw [levRows]
    have hlen : u.length + 1 = levRec (u ++ [c1]) [] := by
      rw [levRec_nil_right]
      simp
    have hstep : rowStep c1 s2 (rowTail u [] s2) (u.length + 1) = outRow (u ++ [c1]) [] s2 := by
      rw [hlen]
      exact rowStep_spec c1 u s2 []
    have hrow : (u.length + 1) :: rowStep c1 s2 (rowTail u [] s2) (u.length + 1) =
        rowTail (u ++ [c1]) [] s2 := by
      rw [hstep, hlen, ← rowTail_eq_cons_outRow]
    rw [hrow]
    have hlen2 : u.length + 1 = (u ++ [c1]).length := by simp
    rw [hlen2, ih (u ++ [c1]), ← List.append_cons]

theorem rowTail_getLastD : ∀ (t : List Char) (u w : List Char) (dflt : Nat),
    (rowTail u w t).getLastD dflt = levRec u (w ++ t) := by
  intro t
  induction t with
  | nil => intro u w dflt; rw [rowTail, List.append_nil]; rfl
  | cons d t ih =>
    intro u w dflt
    rw [rowTail, List.getLastD_cons, ih, List.append_assoc, List.singleton_append]

theorem rowTail_nil_eq_range' : ∀ (t : List Char) (w : List Char),
    rowTail [] w t = List.range' w.length (t.length + 1) := by
  intro t
  induction t with
  | nil =>
    intro w
    rw [rowTail, levRec_nil]
    simp [List.range'_one]
  | cons d t ih =>
    intro w
    rw [rowTail, levRec_nil, List.length_cons, List.range'_succ, ih]
    simp

theorem levCore_eq_levRec (s1 s2 : List Char) : levCore s1 s2 = levRec s1 s2 := by
  unfold levCore
  by_cases h2 : s2.length = 0
  · rw [if_pos h2, List.length_eq_zero.mp h2, levRec_nil_right]
  · rw [if_neg h2]
    have hr : List.range (s2.length + 1) = rowTail [] [] s2 := by
      rw [rowTail_nil_eq_range', List.length_nil, List.range_eq_range']
    rw [hr]
    have h0 : (0 : Nat) = ([] : List Char).length := rfl
    rw [h0, levRows_spec s2 s1 [], List.nil_append, rowTail_getLastD, List.nil_append]

/-- The source `levenshtein` computes the specification distance. -/
theorem levenshtein_eq_levRec (s1 s2 : List Char) : levenshtein s1 s2 = levRec s1 s2 := by
  unfold levenshtein
  by_cases h : s1.length < s2.length
  · rw [if_pos h, levCore_eq_levRec, levRec_symm]
  · rw [if_neg h, levCore_eq_levRec]

end LevBridge

/-- A single edit operation of the specification's reading of Levenshtein
distance: insert, delete or substitute one character anywhere. -/
inductive EditStep : List Char → List Char → Prop
  | ins (u v : List Char) (c : Char) : EditStep (u ++ v) (u ++ c :: v)
  | del (u v : List Char) (c : Char) : EditStep (u ++ c :: v) (u ++ v)
  | sub (u v : List Char) (c d : Char) : EditStep (u ++ c :: v) (u ++ d :: v)

/-- A sequence of `n` edit operations transforming one string into another. -/
inductive EditPath : Nat → List Char → List Char → Prop
  | refl (l : List Char) : EditPath 0 l l
  | step {n : Nat} {a b c : List Char} :
      EditStep a b → EditPath n b c → EditPath (n + 1) a c

theorem EditPath.trans : ∀ {m n : Nat} {a b c : List Char},
    EditPath m a b → EditPath n b c → EditPath (m + n) a c := by
  intro m n a b c p q
  induction p with
  | refl l => simpa using q
  | step s _ ih =>
    have := EditPath.step s (ih q)
    simpa [Nat.add_right_comm] using this

theorem EditPath.snoc {n : Nat} {a b c : List Char}
    (p : EditPath n a b) (s : EditStep b c) : EditPath (n + 1) a c :=
  p.trans (EditPath.step s (EditPath.refl c))

theorem editStep_cons {u v : List Char} (x : Char) (s : EditStep u v) :
    EditStep (x :: u) (x :: v) := by
  cases s with
  | ins u v c =>
    have h := EditStep.ins (x :: u) v c
    simpa using h
  | del u v c =>
    have h := EditStep.del (x :: u) v c
    simpa using h
  | sub u v c d =>
    have h := EditStep.sub (x :: u) v c d
    simpa using h

theorem editPath_cons : ∀ {n : Nat} {u v : List Char} (x : Char),
    EditPath n u v → EditPath n (x :: u) (x :: v) := by
  intro n u v x p
  induction p with
  | refl l => exact EditPath.refl (x :: l)
  | step s _ ih => exact EditPath.step (editStep_cons x s) ih

section LevEditProofs

attribute [local irreducible] levRec levRecAux

theorem levRec_self : ∀ a : List Char, levRec a a = 0 := by
  intro a
  induction a with
  | nil => rw [levRec_nil]; rfl
  | cons x xs ih =>
    have h := levRec_cons_cons x x xs xs
    simp only [eq_self_iff_true, if_true] at h
    omega

/-- There is an edit path of length `levRec a b` from `a` to `b`. -/
theorem levRec_editPath : ∀ a b : List Char, EditPath (levRec a b) a b := by
  intro a
  induction a with
  | nil =>
    intro b
    rw [levRec_nil]
    induction b with
    | nil => exact EditPath.refl []
    | cons y ys ihb =>
      have s : EditStep [] [y] := by
        have h := EditStep.ins [] [] y
        simpa using h
      exact EditPath.step s (editPath_cons y ihb)
  | cons x xs ih =>
    intro b
    induction b with
    | nil =>
      rw [levRec_nil_right]
      have s : EditStep (x :: xs) xs := by
        have h := EditStep.del [] xs x
        simpa using h
      have p := ih []
      rw [levRec_nil_right] at p
      exact EditPath.step s p
    | cons y ys ihy =>
      rw [levRec_cons_cons]
      rcases le_or_lt (levRec xs ys + (if x = y then 0 else 1))
          (min (levRec xs (y :: ys)) (levRec (x :: xs) ys) + 1) with h | h
      · rw [min_eq_left h]
        by_cases hxy : x = y
        · subst hxy
          rw [if_pos rfl, Nat.add_zero]
          exact editPath_cons x (ih ys)
        · rw [if_neg hxy]
          have s : EditStep (x :: xs) (y :: xs) := by
            have hs := EditStep.sub [] xs x y
            simpa using hs
          exact EditPath.step s (editPath_cons y (ih ys))
      · rw [min_eq_right h.le]
        rcases le_or_lt (levRec xs (y :: ys)) (levRec (x :: xs) ys) with h2 | h2
        · rw [min_eq_left h2]
          have s : EditStep (x :: xs) xs := by
            have hs := EditStep.del [] xs x
            simpa using hs
          exact EditPath.step s (ih (y :: ys))
        · rw [min_eq_right h2.le]
          have s : EditStep ys (y :: ys) := by
            have hs := EditStep.ins [] ys y
            simpa using hs
          exact EditPath.snoc ihy s

/-- Deleting one character anywhere raises the distance by at most one. -/
theorem lev_del_le : ∀ (u : List Char) (x : Char) (v c : List Char),
    levRec (u ++ x :: v) c ≤ levRec (u ++ v) c + 1 := by
  intro u
  induction u with
  | nil =>
    intro x v c
    cases c with
    | nil =>
      rw [List.nil_append, List.nil_append, levRec_nil_right, levRec_nil_right]
      simp only [List.length_cons]
      omega
    | cons z c2 =>
      rw [List.nil_append, List.nil_append]
      have h1 := levRec_cons_cons x z v c2
      omega
  | cons w u2 ih =>
    intro x v c
    induction c with
    | nil =>
      simp only [List.cons_append, levRec_nil_right, List.length_cons,
        List.length_append]
      omega
    | cons z c2 ihc =>
      simp only [List.cons_append] at ihc ⊢
      have h1 := levRec_cons_cons w z (u2 ++ x :: v) c2
      have h2 := levRec_cons_cons w z (u2 ++ v) c2
      have h3 := ih x v c2
      have h4 := ih x v (z :: c2)
      omega

/-- Inserting one character anywhere raises the distance by at most one. -/
theorem lev_ins_le : ∀ (u : List Char) (x : Char) (v c : List Char),
    levRec (u ++ v) c ≤ levRec (u ++ x :: v) c + 1 := by
  intro u
  induction u with
  | nil =>
    intro x v c
    induction c with
    | nil =>
      rw [List.nil_append, List.nil_append, levRec_nil_right, levRec_nil_right]
      simp only [List.length_cons]
      omega
    | cons z c2 ihc =>
      rw [List.nil_append, List.nil_append] at ihc ⊢
      have h1 := levRec_cons_cons x z v c2
      have hd := lev_del_le [] z c2 v
      rw [List.nil_append, List.nil_append] at hd
      have e1 := levRec_symm v (z :: c2)
      have e2 := levRec_symm v c2
      have hb : (if x = z then 0 else 1) ≤ 1 := by
        by_cases h : x = z <;> simp [h]
      omega
  | cons w u2 ih =>
    intro x v c
    induction c with
    | nil =>
      simp only [List.cons_append, levRec_nil_right, List.length_cons,
        List.length_append]
      omega
    | cons z c2 ihc =>
      simp only [List.cons_append] at ihc ⊢
      have h1 := levRec_cons_cons w z (u2 ++ v) c2
      have h2 := levRec_cons_cons w z (u2 ++ x :: v) c2
      have h3 := ih x v c2
      have h4 := ih x v (z :: c2)
      omega

/-- Substituting one character anywhere raises the distance by at most one. -/
theorem lev_sub_le : ∀ (u : List Char) (x y : Char) (v c : List Char),
    levRec (u ++ x :: v) c ≤ levRec (u ++ y :: v) c + 1 := by
  intro u
  induction u with
  | nil =>
    intro x y v c
    induction c with
    | nil =>
      rw [List.nil_append, List.nil_append, levRec_nil_right, levRec_nil_right]
      simp only [List.length_cons]
      omega
    | cons z c2 ihc =>
      rw [List.nil_append, List.nil_append] at ihc ⊢
      have h1 := levRec_cons_cons x z v c2
      have h2 := levRec_cons_cons y z v c2
      have b1 : (if x = z then 0 else 1) ≤ 1 := by
        by_cases h : x = z <;> simp [h]
      omega
  | cons w u2 ih =>
    intro x y v c
    induction c with
    | nil =>
      simp only [List.cons_append, levRec_nil_right, List.length_cons,
        List.length_append]
      omega
    | cons z c2 ihc =>
      simp only [List.cons_append] at ihc ⊢
      have h1 := levRec_cons_cons w z (u2 ++ x :: v) c2
      have h2 := levRec_cons_cons w z (u2 ++ y :: v) c2
      have h3 := ih x y v c2
      have h4 := ih x y v (z :: c2)
      omega

/-- One edit step changes the distance to any third string by at most one. -/
theorem editStep_lipschitz {a b : List Char} (s : EditStep a b) :
    ∀ c : List Char, levRec a c ≤ levRec b c + 1 := by
  intro c
  cases s with
  | ins u v ch => exact lev_ins_le u ch v c
  | del u v ch => exact lev_del_le u ch v c
  | sub u v ch dh => exact lev_sub_le u ch dh v c

/-- No edit path is shorter than the specification distance. -/
theorem editPath_ge : ∀ {n : Nat} {a b : List Char}, EditPath n a b → levRec a b ≤ n := by
  intro n a b p
  induction p with
  | refl l => rw [levRec_self]
  | @step n2 a2 b2 c2 s q ih =>
    have hl := editStep_lipschitz s c2
    omega

end LevEditProofs

theorem hamming_symm : ∀ s1 s2 : List Char, hamming s1 s2 = hamming s2 s1 := by
  intro s1
  induction s1 with
  | nil => intro s2; cases s2 <;> rfl
  | cons a as ih =>
    intro s2
    cases s2 with
    | nil => rfl
    | cons b bs =>
      simp only [hamming, List.zip_cons_cons, List.map_cons, List.sum_cons] at *
      rw [ih bs]
      have : (if a ≠ b then 1 else 0) = (if b ≠ a then 1 else 0) := by
        by_cases h : a = b
        · rw [if_neg (not_not_intro h), if_neg (not_not_intro h.symm)]
        · rw [if_pos h, if_pos (fun hba : b = a => h hba.symm)]
      rw [this]

/-- The cuneiform numeral-subscript glyphs of the character class
`[₁₂₃₄₅₆₇₈₉₀]` in `f_xlit`. -/
def isSubscript (c : Char) : Bool :=
  c = '₁' ∨ c = '₂' ∨ c = '₃' ∨ c = '₄' ∨ c = '₅' ∨
  c = '₆' ∨ c = '₇' ∨ c = '₈' ∨ c = '₉' ∨ c = '₀'

/-- Translation of `re.sub('\{URU\}|\{KUR\}|\{KI\}|[₁₂₃₄₅₆₇₈₉₀]', '', x)`:
left-to-right scan deleting every occurrence of the literal (case-sensitive)
marker strings `{URU}`, `{KUR}`, `{KI}` and every subscript glyph. -/
def stripSub : List Char → List Char
  | [] => []
  | '{' :: 'U' :: 'R' :: 'U' :: '}' :: rest => stripSub rest
  | '{' :: 'K' :: 'U' :: 'R' :: '}' :: rest => stripSub rest
  | '{' :: 'K' :: 'I' :: '}' :: rest => stripSub rest
  | c :: rest => if isSubscript c then stripSub rest else c :: stripSub rest

/-- Translation of `f_xlit(x)`: the four `re.sub` lines in source order.  Note
that the first substitution is applied to `x.lower()`, so its case-sensitive
alternatives `\{URU\}`, `\{KUR\}`, `\{KI\}` can only match if the lowercased
text still contains uppercase `URU`/`KUR`/`KI` — which it never does. -/
def f_xlit (x : List Char) : List Char :=
  (((pyLower (stripSub (pyLower x))).map
        (fun c => if c = '.' then '-' else c)).filter
      (fun c => ¬(c = '(' ∨ c = ')'))).map
    (fun c => if c = 'ŋ' then 'g' else c)

theorem stripSub_subset : ∀ (y : List Char) (c : Char),
    c ∈ stripSub y → c ∈ y ∧ isSubscript c = false := by
  intro y
  induction y using stripSub.induct with
  | case1 => intro c hc; simp [stripSub] at hc
  | case2 rest ih =>
    intro c hc
    rw [stripSub] at hc
    have := ih c hc
    exact ⟨by simp [this.1], this.2⟩
  | case3 rest ih =>
    intro c hc
    rw [stripSub] at hc
    have := ih c hc
    exact ⟨by simp [this.1], this.2⟩
  | case4 rest ih =>
    intro c hc
    rw [stripSub] at hc
    have := ih c hc
    exact ⟨by simp [this.1], this.2⟩
  | case5 d rest h1 h2 h3 hsub ih =>
    intro c hc
    rw [stripSub, if_pos hsub] at hc
    · have := ih c hc
      exact ⟨List.mem_cons_of_mem _ this.1, this.2⟩
    · exact h1
    · exact h2
    · exact h3
  | case6 d rest h1 h2 h3 hsub ih =>
    intro c hc
    rw [stripSub, if_neg hsub] at hc
    · rcases List.mem_cons.mp hc with h | h
      · subst h
        exact ⟨List.mem_cons_self _ _, by simpa using hsub⟩
      · have := ih c h
        exact ⟨List.mem_cons_of_mem _ this.1, this.2⟩
    · exact h1
    · exact h2
    · exact h3

/-- A string that contains no `U`, no `K` and no subscript glyph is untouched
by the marker-and-subscript substitution (all three marker patterns need an
uppercase `U` or `K` as their second character). -/
theorem stripSub_fix : ∀ (y : List Char),
    (∀ c ∈ y, c ≠ 'U' ∧ c ≠ 'K' ∧ isSubscript c = false) → stripSub y = y := by
  intro y
  induction y using stripSub.induct with
  | case1 => intro _; rfl
  | case2 rest ih =>
    intro h
    exact absurd rfl (h 'U' (by simp)).1
  | case3 rest ih =>
    intro h
    exact absurd rfl (h 'K' (by simp)).2.1
  | case4 rest ih =>
    intro h
    exact absurd rfl (h 'K' (by simp)).2.1
  | case5 d rest h1 h2 h3 hsub ih =>
    intro h
    exact absurd hsub (by simp [(h d (List.mem_cons_self _ _)).2.2])
  | case6 d rest h1 h2 h3 hsub ih =>
    intro h
    rw [stripSub, if_neg hsub]
    · rw [ih (fun c hc => h c (List.mem_cons_of_mem _ hc))]
    · exact h1
    · exact h2
    · exact h3

/-- Invariant satisfied by every character of an `f_xlit` output: fixed by
lowercasing, not a subscript glyph, and none of the characters the later
substitutions rewrite or remove. -/
def NormedChar (c : Char) : Prop :=
  pyCharLower c = c ∧ isSubscript c = false ∧
    c ≠ '.' ∧ c ≠ '(' ∧ c ≠ ')' ∧ c ≠ 'ŋ'

theorem f_xlit_chars (x : List Char) : ∀ c ∈ f_xlit x, NormedChar c := by
  intro c hc
  unfold f_xlit at hc
  rcases List.mem_map.mp hc with ⟨d, hd, hdc⟩
  rcases List.mem_filter.mp hd with ⟨hd2, hpar⟩
  rcases List.mem_map.mp hd2 with ⟨e, he, hed⟩
  rcases List.mem_map.mp he with ⟨g, hg, hge⟩
  have hgs := stripSub_subset (pyLower x) g hg
  rcases List.mem_map.mp hgs.1 with ⟨a, _, hag⟩
  -- g is a pyCharLower output, hence a fixed point of pyCharLower
  have hgfix : pyCharLower g = g := by rw [← hag, pyCharLower_idem]
  -- e = pyCharLower g = g
  have hegg : e = g := by rw [← hge, hgfix]
  by_cases hedot : e = '.'
  · -- d = '-'
    have hdv : d = '-' := by rw [← hed, if_pos hedot]
    subst hdv
    by_cases hdg : ('-' : Char) = 'ŋ'
    · exact absurd hdg (by decide)
    · have hcv : c = '-' := by rw [← hdc, if_neg hdg]
      subst hcv
      refine ⟨by decide, by decide, by decide, by decide, by decide, by decide⟩
  · have hdv : d = e := by rw [← hed, if_neg hedot]
    by_cases hdg : d = 'ŋ'
    · have hcv : c = 'g' := by rw [← hdc, if_pos hdg]
      subst hcv
      refine ⟨by decide, by decide, by decide, by decide, by decide, by decide⟩
    · have hdgq : d = g := by rw [hdv, hegg]
      have hcq : c = g := by rw [← hdc, if_neg hdg, hdgq]
      rw [hcq]
      rw [hdgq] at hdg hpar
      rw [hegg] at hedot
      have hpar2 : ¬(g = '(' ∨ g = ')') := by simpa using hpar
      refine ⟨hgfix, hgs.2, hedot, fun h => hpar2 (Or.inl h),
        fun h => hpar2 (Or.inr h), hdg⟩

/-- A string all of whose characters satisfy the invariant is a fixed point
of `f_xlit`. -/
theorem f_xlit_fix (z : List Char) (hz : ∀ c ∈ z, NormedChar c) :
    f_xlit z = z := by
  have hlow : pyLower z = z := by
    have : z.map pyCharLower = z.map id := List.map_congr_left (fun c hc => (hz c hc).1)
    simpa [pyLower] using this
  have hstrip : stripSub z = z := by
    apply stripSub_fix
    intro c hc
    obtain ⟨h1, h2, _, _, _, _⟩ := hz c hc
    refine ⟨?_, ?_, h2⟩
    · intro hU
      subst hU
      exact absurd h1 (by decide)
    · intro hK
      subst hK
      exact absurd h1 (by decide)
  have hdot : z.map (fun c => if c = '.' then '-' else c) = z := by
    have : z.map (fun c => if c = '.' then '-' else c) = z.map id :=
      List.map_congr_left (fun c hc => by
        obtain ⟨_, _, h3, _, _, _⟩ := hz c hc
        simp [h3])
    simpa using this
  have hfil : z.filter (fun c => ¬(c = '(' ∨ c = ')')) = z := by
    rw [List.filter_eq_self]
    intro c hc
    obtain ⟨_, _, _, h4, h5, _⟩ := hz c hc
    simp [h4, h5]
  have hg : z.map (fun c => if c = 'ŋ' then 'g' else c) = z := by
    have : z.map (fun c => if c = 'ŋ' then 'g' else c) = z.map id :=
      List.map_congr_left (fun c hc => by
        obtain ⟨_, _, _, _, _, h6⟩ := hz c hc
        simp [h6])
    simpa using this
  unfold f_xlit
  rw [hlow, hstrip, hlow, hdot, hfil, hg]

/-- `f_xlit` is idempotent. -/
theorem f_xlit_idem (x : List Char) : f_xlit (f_xlit x) = f_xlit x :=
  f_xlit_fix (f_xlit x) (f_xlit_chars x)

/-- `f_xlit` is insensitive to `str.upper`, since its first step lowercases
and `lower ∘ upper = lower` char-wise. -/
theorem f_xlit_upper (x : List Char) : f_xlit (pyUpper x) = f_xlit x := by
  unfold f_xlit
  rw [pyLower_pyUpper]

/-- Association-list state of `compare_xlits`' `s_dict`: suggestion name to
its accumulated star string. -/
abbrev SDict : Type := List (List Char × List Char)

/-- Translation of the match branch of the `compare_xlits` inner loop:
`s_dict[s] = '*'` when absent, `s_dict[s] += '*'` when present. -/
def starUpd (d : SDict) (s : List Char) : SDict :=
  match dget d s with
  | none => d ++ [(s, ['*'])]
  | some _ => dmodify (fun v => v ++ ['*']) d s

/-- Translation of the no-match branch: `s_dict[s] = ''` when absent,
no change when present. -/
def touchUpd (d : SDict) (s : List Char) : SDict :=
  match dget d s with
  | none => d ++ [(s, [])]
  | some _ => d

/-- The inner loop `for t in t_xlits` of `compare_xlits`, for one suggestion
`s` whose transliterations are `s_xlits`. -/
def innerXlit (s : List Char) (s_xlits : List (List Char)) :
    SDict → List (List Char) → SDict
  | d, [] => d
  | d, t :: ts =>
      innerXlit s s_xlits
        (if f_xlit t ∈ s_xlits.map f_xlit then starUpd d s else touchUpd d s) ts

/-- A lemma store record: `[freq, xlit]` of the source. -/
abbrev Store : Type := List (List Char × (Nat × List (List Char)))

/-- The outer loop `for s in suggestions` of `compare_xlits`; the lookup
`data[s]` raises `KeyError` for an absent key, modelled by `none`. -/
def buildSDict (data : Store) (t_xlits : List (List Char)) :
    SDict → List (List Char) → Option SDict
  | d, [] => some d
  | d, s :: rest => do
      let srec ← dget data s
      buildSDict data t_xlits (innerXlit s srec.2 d t_xlits) rest

/-- Translation of `compare_xlits(target, suggestions)` over an explicit store
(the source reads the module-level `data`).  Returns the list
`['%s%s' % (x, s_dict[x]) for x in s_dict.keys()]`. -/
def compare_xlits (data : Store) (target : List Char)
    (suggestions : List (List Char)) : Option (List (List Char)) := do
  let trec ← dget data target
  let d ← buildSDict data trec.2 [] suggestions
  return d.map (fun p => p.1 ++ p.2)

theorem dget_touchUpd_self (d : SDict) (s : List Char) :
    dget (touchUpd d s) s = some ((dget d s).getD []) := by
  unfold touchUpd
  cases h : dget d s with
  | none =>
    rw [dget_append_new, h]
    simp
  | some v => rw [h]; rfl

theorem dget_touchUpd_other (d : SDict) (s k : List Char) (hk : k ≠ s) :
    dget (touchUpd d s) k = dget d k := by
  unfold touchUpd
  cases h : dget d s with
  | none =>
    rw [dget_append_new]
    cases h2 : dget d k with
    | none => simp [hk]
    | some w => rfl
  | some v => rfl

theorem dget_starUpd_other (d : SDict) (s k : List Char) (hk : k ≠ s) :
    dget (starUpd d s) k = dget d k := by
  unfold starUpd
  cases h : dget d s with
  | none =>
    rw [dget_append_new]
    cases h2 : dget d k with
    | none => simp [hk]
    | some w => rfl
  | some v =>
    rw [dget_dmodify, if_neg hk]

theorem innerXlit_other (s : List Char) (sx : List (List Char)) (k : List Char)
    (hk : k ≠ s) : ∀ (ts : List (List Char)) (d : SDict),
    dget (innerXlit s sx d ts) k = dget d k := by
  intro ts
  induction ts with
  | nil => intro d; rfl
  | cons t ts ih =>
    intro d
    rw [innerXlit]
    rw [ih]
    by_cases hm : f_xlit t ∈ sx.map f_xlit
    · rw [if_pos hm, dget_starUpd_other d s k hk]
    · rw [if_neg hm, dget_touchUpd_other d s k hk]

theorem innerXlit_nomatch_keep (s : List Char) (sx : List (List Char)) :
    ∀ (ts : List (List Char)) (d : SDict),
      (∀ t ∈ ts, f_xlit t ∉ sx.map f_xlit) →
      dget d s = some [] → dget (innerXlit s sx d ts) s = some [] := by
  intro ts
  induction ts with
  | nil => intro d _ hd; exact hd
  | cons t ts ih =>
    intro d hts hd
    rw [innerXlit, if_neg (hts t (List.mem_cons_self _ _))]
    apply ih _ (fun t2 ht2 => hts t2 (List.mem_cons_of_mem _ ht2))
    unfold touchUpd
    rw [hd]
    exact hd


theorem innerXlit_nomatch_none (s : List Char) (sx : List (List Char)) :
    ∀ (ts : List (List Char)) (d : SDict),
      ts ≠ [] →
      (∀ t ∈ ts, f_xlit t ∉ sx.map f_xlit) →
      dget d s = none → dget (innerXlit s sx d ts) s = some [] := by
  intro ts
  cases ts with
  | nil => intro d h; exact absurd rfl h
  | cons t ts =>
    intro d _ hts hd
    rw [innerXlit, if_neg (hts t (List.mem_cons_self _ _))]
    apply innerXlit_nomatch_keep s sx ts _
      (fun t2 ht2 => hts t2 (List.mem_cons_of_mem _ ht2))
    have := dget_touchUpd_self d s
    rw [hd] at this
    simpa using this

theorem buildSDict_keep (data : Store) (txs : List (List Char)) (s : List Char)
    (fs : Nat) (sxs : List (List Char)) (hs : dget data s = some (fs, sxs))
    (hnom : ∀ t ∈ txs, f_xlit t ∉ sxs.map f_xlit) :
    ∀ (suggestions : List (List Char)) (d dOut : SDict),
      buildSDict data txs d suggestions = some dOut →
      dget d s = some [] → dget dOut s = some [] := by
  intro suggestions
  induction suggestions with
  | nil =>
    intro d dOut hb hd
    rw [buildSDict] at hb
    obtain rfl : d = dOut := by injection hb
    exact hd
  | cons s2 rest ih =>
    intro d dOut hb hd
    rw [buildSDict] at hb
    cases h2 : dget data s2 with
    | none => rw [h2] at hb; exact absurd hb (by simp [Option.bind])
    | some r =>
      rw [h2] at hb
      apply ih _ _ hb
      by_cases hss : s2 = s
      · subst hss
        rw [h2] at hs
        obtain rfl : r = (fs, sxs) := by injection hs
        exact innerXlit_nomatch_keep s2 sxs txs _ hnom hd
      · rw [innerXlit_other s2 r.2 s (fun he => hss he.symm) txs d]
        exact hd

theorem buildSDict_creates (data : Store) (txs : List (List Char)) (s : List Char)
    (fs : Nat) (sxs : List (List Char)) (hs : dget data s = some (fs, sxs))
    (htxs : txs ≠ [])
    (hnom : ∀ t ∈ txs, f_xlit t ∉ sxs.map f_xlit) :
    ∀ (suggestions : List (List Char)) (d dOut : SDict),
      buildSDict data txs d suggestions = some dOut →
      s ∈ suggestions →
      dget d s = none → dget dOut s = some [] := by
  intro suggestions
  induction suggestions with
  | nil => intro d dOut _ hmem; exact absurd hmem (by simp)
  | cons s2 rest ih =>
    intro d dOut hb hmem hd
    rw [buildSDict] at hb
    cases h2 : dget data s2 with
    | none => rw [h2] at hb; exact absurd hb (by simp [Option.bind])
    | some r =>
      rw [h2] at hb
      by_cases hss : s2 = s
      · subst hss
        rw [h2] at hs
        obtain rfl : r = (fs, sxs) := by injection hs
        have hcreated : dget (innerXlit s2 sxs d txs) s2 = some [] :=
          innerXlit_nomatch_none s2 sxs txs d htxs hnom hd
        exact buildSDict_keep data txs s2 fs sxs h2 hnom rest _ dOut hb hcreated
      · have hmem2 : s ∈ rest := by
          rcases List.mem_cons.mp hmem with h | h
          · exact absurd h.symm hss
          · exact h
        apply ih _ _ hb hmem2
        rw [innerXlit_other s2 r.2 s (fun he => hss he.symm) txs d]
        exact hd

theorem buildSDict_total (data : Store) (txs : List (List Char)) :
    ∀ (suggestions : List (List Char)) (d : SDict),
      (∀ s2 ∈ suggestions, (dget data s2).isSome) →
      ∃ dOut, buildSDict data txs d suggestions = some dOut := by
  intro suggestions
  induction suggestions with
  | nil => intro d _; exact ⟨d, rfl⟩
  | cons s2 rest ih =>
    intro d hall
    have h2 : (dget data s2).isSome := hall s2 (List.mem_cons_self _ _)
    cases h3 : dget data s2 with
    | none => rw [h3] at h2; exact absurd h2 (by simp)
    | some r =>
      obtain ⟨dOut, hOut⟩ :=
        ih (innerXlit s2 r.2 d txs) (fun z hz => hall z (List.mem_cons_of_mem _ hz))
      refine ⟨dOut, ?_⟩
      rw [buildSDict, h3]
      simpa using hOut

/-- Translation of `min_val` selection in `compare`:
`2 if len(w1) >= 8 else 1`. -/
def min_val (w1 : List Char) : Nat := if 8 ≤ w1.length then 2 else 1

/-- The edge mapping built by `compare` (module-level `dictionary`). -/
abbrev EdgeMap : Type := List (List Char × List (List Char))

/-- Translation of the edge-creation statement of `compare`:
`dictionary[w1] = [w2]` when `w1` is a fresh key, else
`dictionary[w1].append(w2)`. -/
def addEdge (d : EdgeMap) (w1 w2 : List Char) : EdgeMap :=
  match dget d w1 with
  | none => d ++ [(w1, [w2])]
  | some _ => dmodify (fun v => v ++ [w2]) d w1

/-- Translation of the inner loop `for w2 in data[index+1:]` of `compare`:
the sorted-length gate `x[1] - x[0] > 3` skips the pair, otherwise the score
is compared against `min_val`. -/
def innerLoop (w1 : List Char) : EdgeMap → List (List Char) → EdgeMap
  | d, [] => d
  | d, w2 :: rest =>
      innerLoop w1
        (if max w1.length w2.length - min w1.length w2.length > 3 then d
         else if score_strings w1 w2 ≤ min_val w1 then addEdge d w1 w2 else d)
        rest

/-- Translation of the outer loop `for w1 in data` of `compare`.  The source
recomputes `index = data.index(w1)` and iterates `data[index+1:]`; for the
duplicate-free key list of a Python dict this is exactly the tail after `w1`,
which is how the fold below proceeds. -/
def outerLoop : EdgeMap → List (List Char) → EdgeMap
  | d, [] => d
  | d, w1 :: rest => outerLoop (innerLoop w1 d rest) rest

/-- Translation of `compare(dict_data)`.  Before any pairwise comparison the
source computes `m = range(0, len(data), int(len(data)/100))` for progress
printing; `range` raises `ValueError` when the step `int(len(data)/100)`
is zero, i.e. whenever the store has fewer than 100 entries (the empty store
included).  The error is modelled as `Except.error ()`. -/
def compare (dict_data : Store) : Except Unit EdgeMap :=
  let data := dict_data.map Prod.fst
  if data.length / 100 = 0 then Except.error ()
  else Except.ok (outerLoop [] data)

/-- The condition under which the clusterer records the edge `w1 → w2`:
the length gate passes and the score is within the threshold. -/
def isCand (w1 w2 : List Char) : Bool :=
  decide (max w1.length w2.length - min w1.length w2.length ≤ 3 ∧
    score_strings w1 w2 ≤ min_val w1)

theorem dget_addEdge_self (d : EdgeMap) (w1 w2 : List Char) :
    dget (addEdge d w1 w2) w1 = some ((dget d w1).getD [] ++ [w2]) := by
  unfold addEdge
  cases h : dget d w1 with
  | none =>
    rw [dget_append_new, h]
    simp
  | some v =>
    rw [dget_dmodify, if_pos rfl, h]
    rfl

theorem dget_addEdge_other (d : EdgeMap) (w1 w2 k : List Char) (hk : k ≠ w1) :
    dget (addEdge d w1 w2) k = dget d k := by
  unfold addEdge
  cases h : dget d w1 with
  | none =>
    rw [dget_append_new]
    cases h2 : dget d k with
    | none => simp [hk]
    | some w => rfl
  | some v => rw [dget_dmodify, if_neg hk]

theorem innerLoop_self (w1 : List Char) : ∀ (rest : List (List Char)) (d : EdgeMap),
    (dget (innerLoop w1 d rest) w1).getD [] =
      (dget d w1).getD [] ++ rest.filter (fun w2 => isCand w1 w2) := by
  intro rest
  induction rest with
  | nil => intro d; simp [innerLoop]
  | cons w2 rest ih =>
    intro d
    rw [innerLoop]
    by_cases hgate : max w1.length w2.length - min w1.length w2.length > 3
    · rw [if_pos hgate, ih]
      have hc : isCand w1 w2 = false := by
        simp only [isCand, decide_eq_false_iff_not]
        intro h
        omega
      rw [List.filter_cons_of_neg (by simp [hc])]
    · rw [if_neg hgate]
      by_cases hscore : score_strings w1 w2 ≤ min_val w1
      · rw [if_pos hscore, ih, dget_addEdge_self]
        have hc : isCand w1 w2 = true := by
          simp only [isCand, decide_eq_true_eq]
          omega
        rw [List.filter_cons_of_pos (by simp [hc])]
        simp
      · rw [if_neg hscore, ih]
        have hc : isCand w1 w2 = false := by
          simp only [isCand, decide_eq_false_iff_not]
          intro h
          exact hscore h.2
        rw [List.filter_cons_of_neg (by simp [hc])]

theorem innerLoop_other (w1 k : List Char) (hk : k ≠ w1) :
    ∀ (rest : List (List Char)) (d : EdgeMap),
      dget (innerLoop w1 d rest) k = dget d k := by
  intro rest
  induction rest with
  | nil => intro d; rfl
  | cons w2 rest ih =>
    intro d
    rw [innerLoop, ih]
    by_cases hgate : max w1.length w2.length - min w1.length w2.length > 3
    · rw [if_pos hgate]
    · rw [if_neg hgate]
      by_cases hscore : score_strings w1 w2 ≤ min_val w1
      · rw [if_pos hscore, dget_addEdge_other d w1 w2 k hk]
      · rw [if_neg hscore]

theorem outerLoop_absent (w : List Char) : ∀ (ks : List (List Char)) (d : EdgeMap),
    w ∉ ks → dget (outerLoop d ks) w = dget d w := by
  intro ks
  induction ks with
  | nil => intro d _; rfl
  | cons a ks ih =>
    intro d hw
    rw [outerLoop, ih _ (fun h => hw (List.mem_cons_of_mem _ h)),
      innerLoop_other a w (fun h => hw (h ▸ List.mem_cons_self _ _)) ks d]

/-- The candidate list recorded for `w1` by the pairwise sweep, when `w1`
occurs exactly once: the keys after `w1` that pass the gate and threshold,
in order. -/
theorem outerLoop_spec (w1 : List Char) :
    ∀ (l1 rest : List (List Char)) (d : EdgeMap),
      w1 ∉ l1 → w1 ∉ rest → dget d w1 = none →
      (dget (outerLoop d (l1 ++ w1 :: rest)) w1).getD [] =
        rest.filter (fun w2 => isCand w1 w2) := by
  intro l1
  induction l1 with
  | nil =>
    intro rest d _ hrest hd
    rw [List.nil_append, outerLoop, outerLoop_absent w1 rest _ hrest,
      innerLoop_self, hd]
    rfl
  | cons a l1 ih =>
    intro rest d ha hrest hd
    rw [List.cons_append, outerLoop]
    apply ih rest _ (fun h => ha (List.mem_cons_of_mem _ h)) hrest
    rw [innerLoop_other a w1 (fun h => ha (h ▸ List.mem_cons_self _ _)), hd]

/-- The combined mutable state of the script: the module-level `data` store
and the module-level `dictionary` edge accumulator. -/
structure ProgState where
  data : Store
  dictionary : EdgeMap

/-- The clustering pass as a state transformer: `compare(data)` reads the
store's keys and extends only the `dictionary` accumulator; on the
`range`-step error the exception propagates before anything is written. -/
def comparePass (st : ProgState) : Except Unit ProgState :=
  let keys := st.data.map Prod.fst
  if keys.length / 100 = 0 then Except.error ()
  else Except.ok ⟨st.data, outerLoop st.dictionary keys⟩

/-- Translation of the character class of
`re.sub('[–\* \?\[\]0-9]', '', l)` in `get_freq`. -/
def isLabelJunk (c : Char) : Bool :=
  c = '–' ∨ c = '*' ∨ c = ' ' ∨ c = '?' ∨ c = '[' ∨ c = ']' ∨ c.isDigit

/-- Translation of the loop body of `get_freq` for one label: strip the junk
characters to recover the store key, then format `'%s (%i)' % (l, freq)`;
`data[...]` may raise `KeyError`, modelled by `none`. -/
def gfLoop (data : Store) : List (List Char) → Option (List (List Char))
  | [] => some []
  | l :: rest => do
      let r ← dget data (l.filter (fun c => ¬ isLabelJunk c))
      let rest2 ← gfLoop data rest
      return (l ++ (' ' :: '(' :: (Nat.repr r.1).data ++ [')'])) :: rest2

/-- Translation of `get_freq(lemmas, show_freqs)`. -/
def get_freq (data : Store) (show_freqs : Bool) (lemmas : List (List Char)) :
    Option (List (List Char)) :=
  if show_freqs then gfLoop data lemmas else some lemmas

/-- Lexicographic comparison of strings by code point, as Python `sorted`
orders `str` values. -/
def strLtB : List Char → List Char → Bool
  | [], [] => false
  | [], _ :: _ => true
  | _ :: _, [] => false
  | a :: as, b :: bs => if a < b then true else if b < a then false else strLtB as bs

/-- Total order used for sorting labels. -/
def strLeB (a b : List Char) : Bool := !(strLtB b a)

/-- Translation of `' | '.join(...)`. -/
def joinSep (sep : List Char) : List (List Char) → List Char
  | [] => []
  | [x] => x
  | x :: y :: rest => x ++ sep ++ joinSep sep (y :: rest)

/-- Translation of `sorted(list(set(xs)))` for strings: deduplicate by value,
then sort; the arbitrary iteration order of the Python `set` is irrelevant
because `sorted` canonicalizes it. -/
def sortedSet (xs : List (List Char)) : List (List Char) :=
  (xs.dedup).mergeSort strLeB

/-- Translation of the `print_results` loop body for one `dictionary` entry:
filter out `'_'` tombstones when present, annotate via `compare_xlits`, format
the line `'%s\t\t\t%s' % (...)`. -/
def prLine (data : Store) (k : List Char) (v : List (List Char)) :
    Option (List Char) := do
  let results := if ['_'] ∈ v then v.filter (fun x => x ≠ ['_']) else v
  let filt_res ← compare_xlits data k results
  let kf ← get_freq data true [k]
  let khead ← kf.head?
  let labels ← get_freq data true filt_res
  return khead ++ ('\t' :: '\t' :: '\t' :: joinSep (' ' :: '|' :: [' ']) (sortedSet labels))

/-- Translation of `print_results(show_freqs=True)` over explicit state:
one output line per `dictionary` entry, in key order.  (The branch
`dictionary[k] == '_'` of the source compares a list against the string
`'_'`, which is always `False` in Python 3, so it is not reachable and not
modelled.) -/
def print_results (data : Store) : EdgeMap → Option (List (List Char))
  | [] => some []
  | (k, v) :: rest => do
      let line ← prLine data k v
      let restLines ← print_results data rest
      return line :: restLines

/-- The reporting pass (annotation included) as a state transformer: it only
reads the state. -/
def reportPass (st : ProgState) : ProgState × Option (List (List Char)) :=
  (st, print_results st.data st.dictionary)

/-- Python whitespace stripped by `str.strip()` (ASCII portion). -/
def isPySpace (c : Char) : Bool :=
  c = ' ' ∨ c = '\t' ∨ c = '\n' ∨ c = '\r' ∨ c = Char.ofNat 11 ∨ c = Char.ofNat 12

/-- Translation of `l.strip()`. -/
def pyStrip (l : List Char) : List Char :=
  ((l.dropWhile isPySpace).reverse.dropWhile isPySpace).reverse

/-- Translation of `l.split('\t')`. -/
def splitTab : List Char → List (List Char)
  | [] => [[]]
  | '\t' :: rest => [] :: splitTab rest
  | c :: rest =>
      match splitTab rest with
      | [] => [[c]]
      | g :: gs => (c :: g) :: gs

/-- Translation of `s.split(', ')`: non-overlapping left-to-right splitting on
the two-character separator. -/
def splitCS : List Char → List (List Char)
  | [] => [[]]
  | ',' :: ' ' :: rest => [] :: splitCS rest
  | c :: rest =>
      match splitCS rest with
      | [] => [[c]]
      | g :: gs => (c :: g) :: gs

/-- Translation of one iteration of the `freq` branch of `read_file`:

* `l = l.strip()`;
* `freq = int(re.sub('^(\d+?).+', r'\1', l))` — the non-greedy `\d+?`
  captures a single digit, so when the stripped line starts with a digit the
  result is the value of that first digit (for a one-character line the regex
  does not match and `int` parses the single digit directly, same value);
  when it does not start with a digit, `int` raises `ValueError` (modelled
  `none`: the whole line, which contains a tab or non-digits, is not a valid
  integer literal);
* `lemma = re.sub('[0-9 ]', '', l.split('\t')[0])`;
* `xlit = l.split('\t')[1][1:-1].split(', ')` — `IndexError` (modelled
  `none`) when the line has no tab. -/
def read_file_line (l : List Char) : Option (Nat × List Char × List (List Char)) :=
  match pyStrip l with
  | [] => none
  | c :: _ =>
      if c.isDigit then
        match splitTab (pyStrip l) with
        | f1 :: f2 :: _ =>
            some (c.toNat - '0'.toNat,
              f1.filter (fun ch => ¬(ch.isDigit ∨ ch = ' ')),
              splitCS ((f2.drop 1).dropLast))
        | _ => none
      else none

/-- The numeric value of a digit run, most significant digit first. -/
def natOfDigits (ds : List Char) : Nat :=
  ds.foldl (fun acc c => acc * 10 + (c.toNat - '0'.toNat)) 0

/-- Modelled from the claim's words (spec §4.1/§6): split the line on tab into
three fields; the first field's entire leading digit run, read as a number, is
the frequency; the remainder of the first field with digits and spaces
stripped is the surface form key; the third field with its enclosing bracket
characters removed, split on `", "`, is the spellings sequence. -/
def read_file_line_claim (l : List Char) : Option (Nat × List Char × List (List Char)) :=
  match splitTab l with
  | [f1, _, f3] =>
      match f1.takeWhile Char.isDigit with
      | [] => none
      | run =>
          some (natOfDigits run,
            f1.filter (fun ch => ¬(ch.isDigit ∨ ch = ' ')),
            splitCS ((f3.drop 1).dropLast))
  | _ => none

/-- C5: for all strings `a, b`, `score(a, b) == score(b, a)` — the Hamming
branch is symmetric position-wise, and the Levenshtein branch is symmetric
because the source's argument swap normalizes the pair and the specification
distance is symmetric. -/
theorem claimC5 (a b : List Char) : score_strings a b = score_strings b a := by
  unfold score_strings
  by_cases h : a.length = b.length
  · rw [if_pos h, if_pos h.symm, hamming_symm]
  · rw [if_neg h, if_neg (fun e => h e.symm), levenshtein_eq_levRec,
      levenshtein_eq_levRec, levRec_symm]

/-- C4: when the lengths differ, `score(a, b)` is the Levenshtein edit
distance between the lowercased strings — it equals the textbook recurrence
`levRec`, it is realized by some sequence of single-character edits, no
shorter edit sequence exists, and it degenerates to the other string's length
when either string is empty. -/
theorem claimC4 (a b : List Char) (h : a.length ≠ b.length) :
    score_strings a b = levRec (pyLower a) (pyLower b) ∧
    EditPath (score_strings a b) (pyLower a) (pyLower b) ∧
    (∀ n, EditPath n (pyLower a) (pyLower b) → score_strings a b ≤ n) ∧
    (b = [] → score_strings a b = a.length) ∧
    (a = [] → score_strings a b = b.length) := by
  have hs : score_strings a b = levRec (pyLower a) (pyLower b) := by
    unfold score_strings
    rw [if_neg h, levenshtein_eq_levRec]
  refine ⟨hs, ?_, ?_, ?_, ?_⟩
  · rw [hs]
    exact levRec_editPath _ _
  · intro n hp
    rw [hs]
    exact editPath_ge hp
  · intro hb
    subst hb
    rw [hs, show pyLower ([] : List Char) = [] from rfl, levRec_nil_right, pyLower_length]
  · intro ha
    subst ha
    rw [hs, show pyLower ([] : List Char) = [] from rfl, levRec_nil, pyLower_length]

/-- Witness for C4 at `a = "ab"`, `b = "b"`. -/
theorem claimC4_witness :
    "ab".data.length ≠ "b".data.length ∧
    (score_strings "ab".data "b".data = levRec (pyLower "ab".data) (pyLower "b".data) ∧
      EditPath (score_strings "ab".data "b".data) (pyLower "ab".data) (pyLower "b".data) ∧
      (∀ n, EditPath n (pyLower "ab".data) (pyLower "b".data) →
        score_strings "ab".data "b".data ≤ n) ∧
      ("b".data = [] → score_strings "ab".data "b".data = "ab".data.length) ∧
      ("ab".data = [] → score_strings "ab".data "b".data = "b".data.length)) :=
  ⟨by decide, claimC4 "ab".data "b".data (by decide)⟩

/-- C6: `f_xlit` (the normalizer) is idempotent and insensitive to
uppercasing its input. -/
theorem claimC6 (x : List Char) :
    f_xlit (f_xlit x) = f_xlit x ∧ f_xlit x = f_xlit (pyUpper x) :=
  ⟨f_xlit_idem x, (f_xlit_upper x).symm⟩

/-- C3: contrary to the claim, `f_xlit` does not delete the determinative
markers — it lowercases first, so the case-sensitive patterns `{URU}`,
`{KUR}`, `{KI}` never match and the markers survive in lowercased form; a
spelling with a marker therefore normalizes differently from the same
spelling without it. -/
theorem claimC3_eval :
    f_xlit "{URU}A".data = "{uru}a".data ∧
    f_xlit "A".data = "a".data ∧
    f_xlit "{URU}A".data ≠ f_xlit "A".data ∧
    f_xlit "{KUR}a-b".data = "{kur}a-b".data ∧
    f_xlit "{KI}x".data = "{ki}x".data := by decide

/-- C1: for distinct store keys `w1` before `w2` in the key order, `w2` is in
`w1`'s candidate list exactly when the length gate (`abs(len(w1) - len(w2))
<= 3`) passes and `score(w1, w2) <= (2 if len(w1) >= 8 else 1)`. -/
theorem claimC1 (keys l1 l2 l3 : List (List Char)) (w1 w2 : List Char)
    (hk : keys = l1 ++ w1 :: (l2 ++ w2 :: l3)) (hnd : keys.Nodup) :
    w2 ∈ (dget (outerLoop [] keys) w1).getD [] ↔
      (((w1.length : Int) - w2.length).natAbs ≤ 3 ∧
        score_strings w1 w2 ≤ min_val w1) := by
  subst hk
  rw [List.nodup_append] at hnd
  obtain ⟨h1, h2, hdisj⟩ := hnd
  rw [List.nodup_cons] at h2
  obtain ⟨hw1rest, hrestnd⟩ := h2
  have hw1l1 : w1 ∉ l1 := fun h => hdisj h (List.mem_cons_self _ _)
  rw [outerLoop_spec w1 l1 _ [] hw1l1 hw1rest rfl]
  constructor
  · intro hmem
    have hc := (List.mem_filter.mp hmem).2
    simp only [isCand, decide_eq_true_eq] at hc
    exact ⟨by omega, hc.2⟩
  · intro h
    apply List.mem_filter.mpr
    refine ⟨by simp, ?_⟩
    simp only [isCand, decide_eq_true_eq]
    exact ⟨by omega, h.2⟩

/-- Witness for C1 on the two-key store `["ab", "ac"]`. -/
theorem claimC1_witness :
    (["ab".data, "ac".data] =
        [] ++ "ab".data :: ([] ++ "ac".data :: []) ∧
      (["ab".data, "ac".data] : List (List Char)).Nodup) ∧
    ("ac".data ∈ (dget (outerLoop [] ["ab".data, "ac".data]) "ab".data).getD [] ↔
      ((("ab".data.length : Int) - "ac".data.length).natAbs ≤ 3 ∧
        score_strings "ab".data "ac".data ≤ min_val "ab".data)) :=
  ⟨⟨rfl, by decide⟩, claimC1 _ [] [] [] "ab".data "ac".data rfl (by decide)⟩

/-- C7: a candidate with no spelling overlap still receives an entry in the
annotator's output, with an empty star string (the bare candidate name), as
long as the target has at least one spelling — which every frequency-format
record does, its spellings being a `split` result, never the empty list. -/
theorem claimC7 (data : Store) (target s : List Char)
    (suggestions : List (List Char)) (ft : Nat) (txs : List (List Char))
    (fs : Nat) (sxs : List (List Char))
    (htarget : dget data target = some (ft, txs))
    (htxs : txs ≠ [])
    (hall : ∀ z ∈ suggestions, (dget data z).isSome)
    (hmem : s ∈ suggestions)
    (hs : dget data s = some (fs, sxs))
    (hnom : ∀ t ∈ txs, f_xlit t ∉ sxs.map f_xlit) :
    ∃ out, compare_xlits data target suggestions = some out ∧ s ∈ out := by
  obtain ⟨dOut, hOut⟩ := buildSDict_total data txs suggestions [] hall
  have hsd : dget dOut s = some [] :=
    buildSDict_creates data txs s fs sxs hs htxs hnom suggestions [] dOut hOut hmem rfl
  refine ⟨dOut.map (fun p => p.1 ++ p.2), ?_, ?_⟩
  · simp [compare_xlits, htarget, hOut]
  · exact List.mem_map.mpr ⟨(s, []), dget_eq_some_mem hsd, by simp⟩

/-- Witness for C7: target `A` with spelling `a`, candidate `B` with spelling
`z`; no overlap, yet `B` appears (with zero stars). -/
theorem claimC7_witness :
    (dget [("A".data, (1, [['a']])), ("B".data, (1, [['z']]))] "A".data =
        some (1, [['a']]) ∧
      ([['a']] : List (List Char)) ≠ [] ∧
      "B".data ∈ ["B".data] ∧
      dget [("A".data, (1, [['a']])), ("B".data, (1, [['z']]))] "B".data =
        some (1, [['z']])) ∧
    ∃ out, compare_xlits [("A".data, (1, [['a']])), ("B".data, (1, [['z']]))]
        "A".data ["B".data] = some out ∧ "B".data ∈ out :=
  ⟨⟨by decide, by decide, by decide, by decide⟩,
    claimC7 _ "A".data "B".data ["B".data] 1 [['a']] 1 [['z']]
      (by decide) (by decide)
      (by intro z hz; simp at hz; subst hz; decide)
      (by decide) (by decide) (by decide)⟩

/-- C9: the clustering pass only extends the edge accumulator — the store
component of the state is returned unchanged whenever the pass completes —
and the annotation/reporting pass returns the state untouched. -/
theorem claimC9 (st : ProgState) :
    (comparePass st).map ProgState.data = (comparePass st).map (fun _ => st.data) ∧
    (reportPass st).1 = st := by
  constructor
  · unfold comparePass
    by_cases h : ((st.data.map Prod.fst).length) / 100 = 0
    · rw [if_pos h]
      rfl
    · rw [if_neg h]
      rfl
  · rfl

/-- C10: any store of fewer than 100 entries (nonempty or not) makes
`compare` raise at the progress-step computation before any pairwise
comparison, so clustering succeeds only on stores of at least 100 entries. -/
theorem claimC10 (store : Store) (h : store.length < 100) :
    compare store = Except.error () ∧ ∀ d : EdgeMap, compare store ≠ Except.ok d := by
  have hz : ((store.map Prod.fst).length) / 100 = 0 := by
    rw [List.length_map]
    omega
  have he : compare store = Except.error () := by
    unfold compare
    rw [if_pos hz]
  exact ⟨he, fun d hd => by rw [he] at hd; exact Except.noConfusion hd⟩

/-- Witness for C10 on a one-entry store. -/
theorem claimC10_witness :
    ([("a".data, (1, [['a']]))] : Store).length < 100 ∧
    compare [("a".data, (1, [['a']]))] = Except.error () :=
  ⟨by decide, (claimC10 _ (by decide)).1⟩

/-- C8 as stated is false: on the empty store the clustering pass does not
complete — `compare` raises the `range` zero-step `ValueError` — so no edge
mapping (empty or otherwise) is returned. -/
theorem claimC8_counterexample :
    compare ([] : Store) = Except.error () ∧
    (compare ([] : Store)).toOption = none := ⟨rfl, rfl⟩

/-- C8 amended: on an empty input collection the clustering pass raises the
zero-step error before any comparison, leaving no edge mapping; the reporter,
run on an empty edge mapping, emits no output lines. -/
theorem claimC8_amended :
    compare ([] : Store) = Except.error () ∧
    print_results [] [] = some [] ∧
    (∀ data : Store, print_results data [] = some []) :=
  ⟨rfl, rfl, fun _ => rfl⟩

/-- C2 as stated is false on the code: on a three-field line the parser takes
the frequency from only the first digit of the leading run (the regex
`^(\d+?).+` is non-greedy) and the spellings from the second tab field, not
the third. -/
theorem claimC2_counterexample :
    read_file_line "11 Asdudu\t[a-b]\t[c-d]".data ≠
      read_file_line_claim "11 Asdudu\t[a-b]\t[c-d]".data ∧
    read_file_line "11 Asdudu\t[a-b]\t[c-d]".data =
      some (1, "Asdudu".data, ["a-b".data]) ∧
    read_file_line_claim "11 Asdudu\t[a-b]\t[c-d]".data =
      some (11, "Asdudu".data, ["c-d".data]) := by decide

/-- C2 amended: for a stripped line starting with a digit and containing a
tab, the record's frequency is the value of the line's first digit, the key
is the first tab field with digits and spaces stripped, and the spellings are
the second tab field with its first and last characters removed, split on
`", "`. -/
theorem claimC2_amended (l : List Char) (c : Char) (rest : List Char)
    (f1 f2 : List Char) (frest : List (List Char))
    (hstrip : pyStrip l = l) (hl : l = c :: rest) (hd : c.isDigit = true)
    (hsplit : splitTab l = f1 :: f2 :: frest) :
    read_file_line l = some (c.toNat - '0'.toNat,
      f1.filter (fun ch => ¬(ch.isDigit ∨ ch = ' ')),
      splitCS ((f2.drop 1).dropLast)) := by
  unfold read_file_line
  rw [hstrip, hsplit, hl]
  simp only [hd, if_true]

/-- Witness for C2's amended statement on the line `12 Ab\t[x-y, z]`. -/
theorem claimC2_witness :
    pyStrip "12 Ab\t[x-y, z]".data = "12 Ab\t[x-y, z]".data ∧
    ('1' : Char).isDigit = true ∧
    splitTab "12 Ab\t[x-y, z]".data = "12 Ab".data :: "[x-y, z]".data :: [] ∧
    read_file_line "12 Ab\t[x-y, z]".data = some (1, "Ab".data, ["x-y".data, "z".data]) := by
  refine ⟨by decide, by decide, by decide, ?_⟩
  have h := claimC2_amended "12 Ab\t[x-y, z]".data '1' "2 Ab\t[x-y, z]".data
    "12 Ab".data "[x-y, z]".data [] (by decide) (by decide) (by decide) (by decide)
  exact h.trans (by decide)

end MergeLemmas
